import Mathlib

/-!
Shallow embedding of `src/natural_language_inference/ESIM/model.py` and
`src/sentiment_classification/CNN/model.py`.

Tensors are modelled as a row-major flat list of rationals together with a
shape; `torch.view` is the identity on the flattened data.  The exponential
inside `softmax` is an arbitrary strictly positive function `e : ℚ → ℚ`
(mathematically `softmax x i = e (x i) / ∑ j, e (x j)`), so the theorems
quantify over `e`; the real exponential is one instance.  Python-level
failures (`NameError`, `AttributeError`) are modelled with `Except String`.
-/

namespace NLP

/-- The constant `1e-13` added to the denominator in `masked_softmax`
(model.py line 63). -/
def eps : ℚ := 1 / 10 ^ 13

/-- A tensor: its shape together with the row-major flattened data. -/
structure Tensor where
  shape : List ℕ
  data : List ℚ
  deriving DecidableEq, Repr

/-- `get_mask` (model.py lines 9–26): `torch.max(sequences_lengths)` is the
fold of `max` over the lengths; the mask starts as ones of width `max_length`
and is zeroed exactly where the truncated batch entry equals 0. -/
def get_mask (sequences_batch : List (List ℕ)) (sequences_lengths : List ℕ) : List (List ℚ) :=
  let max_length := sequences_lengths.foldr max 0
  sequences_batch.map (fun row =>
    (List.range max_length).map (fun p => if row.getD p 0 = 0 then (0 : ℚ) else 1))

/-- `mask.unsqueeze(1)`: insert a dimension of size 1 at position 1. -/
def unsqueeze1 (t : Tensor) : Tensor :=
  { shape :=
      match t.shape with
      | [] => [1]
      | x :: rest => x :: 1 :: rest,
    data := t.data }

/-- The loop `while mask.dim() < tensor.dim(): mask = mask.unsqueeze(1)`
(model.py lines 51–52): each iteration adds one dimension, so the body runs
`d - mask.dim()` times. -/
def unsqueezeTo (d : ℕ) (t : Tensor) : Tensor :=
  Nat.iterate unsqueeze1 (d - t.shape.length) t

/-- Row-major multi-index of flat position `i` in a tensor of shape `s`. -/
def toIdx : List ℕ → ℕ → List ℕ
  | [], _ => []
  | _ :: rest, i => i / rest.prod :: toIdx rest (i % rest.prod)

/-- Flat position of multi-index `c` in a tensor of shape `s` (row-major). -/
def fromIdx : List ℕ → List ℕ → ℕ
  | _ :: rest, c :: cs => c * rest.prod + fromIdx rest cs
  | _, _ => 0

/-- `m.expand_as(target)` (model.py line 56): size-1 dimensions of `m` are
broadcast along the corresponding dimension of `target`; the entry at a
multi-index of `target` reads `m` at the same multi-index with broadcast
coordinates collapsed to 0. -/
def expandAs (m target : Tensor) : Tensor :=
  { shape := target.shape,
    data := (List.range target.shape.prod).map (fun i =>
      m.data.getD
        (fromIdx m.shape
          (List.zipWith (fun c s => if s = 1 then 0 else c) (toIdx target.shape i) m.shape)) 0) }

/-- Softmax along the rows of a flattened 2-D tensor of row width `w`
(`nn.functional.softmax(·, dim=-1)` applied to the `view(-1, w)` of a tensor),
with exponential `e`. -/
def softmax2 (e : ℚ → ℚ) (w : ℕ) (d : List ℚ) : List ℚ :=
  (List.range d.length).map (fun i =>
    e (d.getD i 0) / ((List.range w).map (fun k => e (d.getD (i / w * w + k) 0))).sum)

/-- Sum over the row of width `w` containing flat position `i`
(`·.sum(dim=-1, keepdim=True)` followed by broadcasting the quotient). -/
def rowSumF (w : ℕ) (d : List ℚ) (i : ℕ) : ℚ :=
  ((List.range w).map (fun k => d.getD (i / w * w + k) 0)).sum

/-- The computation of `masked_softmax` on the flattened 2-D views
(model.py lines 60–63): softmax of the masked logits, multiply by the mask
again, then divide each entry by its row sum plus `eps`. -/
def msFlat (e : ℚ → ℚ) (w : ℕ) (td md : List ℚ) : List ℚ :=
  let result1 := softmax2 e w (List.zipWith (fun a b => a * b) td md)
  let result2 := List.zipWith (fun a b => a * b) result1 md
  (List.range result2.length).map (fun i => result2.getD i 0 / (rowSumF w result2 i + eps))

/-- Width of the last axis, `tensor_shape[-1]` (model.py line 47). -/
def lastDim (t : Tensor) : ℕ := t.shape.getLastD 1

/-- Number of rows of the `view(-1, lastDim)` reshaping. -/
def nRows (t : Tensor) : ℕ := t.data.length / lastDim t

/-- The mask of `masked_softmax` after the unsqueeze loop and `expand_as`
(model.py lines 51–58). -/
def expandedMask (tensor mask : Tensor) : Tensor :=
  expandAs (unsqueezeTo tensor.shape.length mask) tensor

/-- `masked_softmax` (model.py lines 30–65): reshape to 2-D (identity on the
flat data), broadcast the mask, run the 2-D pipeline, reshape back. -/
def masked_softmax (e : ℚ → ℚ) (tensor mask : Tensor) : Tensor :=
  { shape := tensor.shape,
    data := msFlat e (lastDim tensor) tensor.data (expandedMask tensor mask).data }

/-- Split a flat list into `n` consecutive rows of width `w`. -/
def chunkRows (w : ℕ) : ℕ → List ℚ → List (List ℚ)
  | 0, _ => []
  | n + 1, d => d.take w :: chunkRows w n (d.drop w)

/-- Elementwise product of two lists of rows. -/
def mulRows (A B : List (List ℚ)) : List (List ℚ) :=
  List.zipWith (List.zipWith (fun a b => a * b)) A B

/-- Row-by-row softmax. -/
def softmaxRows (e : ℚ → ℚ) (R : List (List ℚ)) : List (List ℚ) :=
  R.map (fun row => row.map (fun v => e v / (row.map e).sum))

/-- Divide every entry of each row by the row sum plus `eps`. -/
def renormRows (R : List (List ℚ)) : List (List ℚ) :=
  R.map (fun row => row.map (fun v => v / (row.sum + eps)))

/-- Masked softmax as the spec words it: broadcast the mask to the tensor's
shape, multiply the tensor by the mask, take the softmax of each row of the
last axis, multiply the result by the mask again, and only then divide each
row by its own sum plus the epsilon `1e-13`. -/
def maskedSoftmaxSpec (e : ℚ → ℚ) (tensor mask : Tensor) : Tensor :=
  let mm := expandedMask tensor mask
  let T := chunkRows (lastDim tensor) (nRows tensor) tensor.data
  let M := chunkRows (lastDim tensor) (nRows tensor) mm.data
  { shape := tensor.shape,
    data := (renormRows (mulRows (softmaxRows e (mulRows T M)) M)).flatten }

/-- The computation of `masked_softmax` on one row and its mask row. -/
def msRow (e : ℚ → ℚ) (tr mr : List ℚ) : List ℚ :=
  let x := List.zipWith (fun a b => a * b) tr mr
  let r1 := x.map (fun v => e v / (x.map e).sum)
  let r2 := List.zipWith (fun a b => a * b) r1 mr
  r2.map (fun v => v / (r2.sum + eps))

/-- Swap the last two entries of a list (used for shapes and multi-indices). -/
def swapLast2 : List ℕ → List ℕ
  | [] => []
  | [a] => [a]
  | [a, b] => [b, a]
  | a :: b :: c :: rest => a :: swapLast2 (b :: c :: rest)

/-- `t.transpose(-1, -2)` (and `transpose(2, 1)` / `transpose(1, 2)` on 3-D
tensors): swap the last two axes. -/
def transposeLastTwo (t : Tensor) : Tensor :=
  { shape := swapLast2 t.shape,
    data := (List.range (swapLast2 t.shape).prod).map (fun i =>
      t.data.getD (fromIdx t.shape (swapLast2 (toIdx (swapLast2 t.shape) i))) 0) }

/-- `a.bmm(b)` for `a : (B, n, m)` and `b : (B, m, p)`. -/
def bmm (a b : Tensor) : Tensor :=
  let B := a.shape.getD 0 1
  let n := a.shape.getD 1 1
  let m := a.shape.getD 2 1
  let p := b.shape.getD 2 1
  { shape := [B, n, p],
    data := (List.range (B * n * p)).map (fun i =>
      ((List.range m).map (fun k =>
        a.data.getD ((i / (n * p) * n + i % (n * p) / p) * m + k) 0 *
          b.data.getD ((i / (n * p) * m + k) * p + i % p) 0)).sum) }

/-- `weighted_sum` (model.py lines 71–90): batched matrix product of the
weights with the tensor, then multiply by the (unsqueezed, transposed,
expanded) mask. -/
def weighted_sum (tensor weights mask : Tensor) : Tensor :=
  let ws := bmm weights tensor
  let mask3 := expandAs (transposeLastTwo (unsqueezeTo ws.shape.length mask)) ws
  { shape := ws.shape, data := List.zipWith (fun a b => a * b) ws.data mask3.data }

/-- `SoftmaxAttention.forward` (model.py lines 147–199). -/
def softmaxAttentionForward (e : ℚ → ℚ)
    (premise_batch premise_mask hypothesis_batch hypothesis_mask : Tensor) : Tensor × Tensor :=
  let similarity_matrix := bmm premise_batch (transposeLastTwo hypothesis_batch)
  let prem_hyp_attn := masked_softmax e similarity_matrix hypothesis_mask
  let hyp_prem_attn := masked_softmax e (transposeLastTwo similarity_matrix) premise_mask
  let attended_premises := weighted_sum hypothesis_batch prem_hyp_attn premise_mask
  let attended_hypotheses := weighted_sum premise_batch hyp_prem_attn hypothesis_mask
  (attended_premises, attended_hypotheses)

/-- Configuration of the `nn.Conv2d` constructed in `CNN.__init__`
(CNN/model.py lines 35–39). -/
structure Conv2dConfig where
  in_channels : ℕ
  out_channels : ℕ
  kernel_h : ℕ
  kernel_w : ℕ
  stride : ℕ
  padding : ℕ
  deriving DecidableEq, Repr

/-- The state of a constructed `CNN` module. -/
structure CNNModel where
  max_len : ℕ
  input_dim : ℕ
  window_dim : ℕ
  filter_dim : ℕ
  emb_weight : List (List ℚ)
  cnn : Conv2dConfig
  deriving DecidableEq, Repr

/-- `CNN.__init__` (CNN/model.py lines 10–39): the embedding is created with
`padding_idx=0`, which zeroes row 0 of the freshly initialised random weight,
but that weight is then immediately overwritten with the caller-supplied
`embeddings` (line 32), so the final lookup table is exactly `embeddings`. -/
def cnnInit (embeddings : List (List ℚ))
    (input_dim window_dim filter_dim output_dim max_len : ℕ) (dropout : ℚ) : CNNModel :=
  { max_len := max_len,
    input_dim := input_dim,
    window_dim := window_dim,
    filter_dim := filter_dim,
    emb_weight := embeddings,
    cnn :=
      { in_channels := 1,
        out_channels := filter_dim,
        kernel_h := window_dim,
        kernel_w := (embeddings.getD 0 []).length,
        stride := 1,
        padding := 0 } }

/-- `CNN.forward` (CNN/model.py lines 44–57): the tokens are embedded, a
singleton channel axis is inserted by `unsqueeze(1)`, and the function body
ends — the convolution is never applied and Python returns `None`.  The model
returns the pair of the last computed local (`sen_batch` after
`unsqueeze(1)`) and the returned value. -/
def cnnForward (m : CNNModel) (sen_batch : List (List ℕ)) (sen_lengths : List ℕ) :
    List (List (List (List ℚ))) × Option (List (List ℚ)) :=
  let embedded := sen_batch.map (fun s => s.map (fun tok => m.emb_weight.getD tok []))
  let unsqueezed := embedded.map (fun mat => [mat])
  (unsqueezed, none)

/-- Attribute names assigned on `self` by `Seq2SeqEncoder.__init__`
(model.py lines 132–136) before `nn.LSTM` is constructed. -/
def s2sAssignedAttrs : List String :=
  ["input_size", "hidden_size", "num_layers", "dropout", "bidirectional"]

/-- The state a successfully constructed `Seq2SeqEncoder` would carry. -/
structure Seq2SeqEncoderState where
  input_size : ℕ
  hidden_size : ℕ
  num_layers : ℕ
  dropout : ℚ
  bidirectional : Bool
  deriving DecidableEq, Repr

/-- `Seq2SeqEncoder.__init__` (model.py lines 104–144): the `nn.LSTM`
construction reads `self.input_dim` and `self.hidden_dim` (lines 139–140),
which are not among the attributes assigned on `self`, so attribute lookup
raises `AttributeError`. -/
def seq2SeqEncoderInit (input_size hidden_size num_layers : ℕ) (bias : Bool)
    (dropout : ℚ) (bidirectional : Bool) : Except String Seq2SeqEncoderState :=
  if "input_dim" ∈ s2sAssignedAttrs then
    if "hidden_dim" ∈ s2sAssignedAttrs then
      .ok { input_size := input_size, hidden_size := hidden_size, num_layers := num_layers,
            dropout := dropout, bidirectional := bidirectional }
    else .error "AttributeError: hidden_dim"
  else .error "AttributeError: input_dim"

/-- Names visible inside `ESIM.__init__`: its parameters plus the
module-level globals of model.py. -/
def esimScopeNames : List String :=
  ["self", "vocab_size", "embeddings_dim", "hidden_size", "embeddings", "dropout",
   "num_classes", "device", "torch", "nn", "F", "get_mask", "masked_softmax",
   "weighted_sum", "Seq2SeqEncoder", "SoftmaxAttention", "ESIM"]

/-- Attributes assigned on `self` by `ESIM.__init__` before line 221; the
statement `self.device = devie` (line 221) fails, so `device` itself is never
assigned. -/
def esimAssignedAttrs : List String :=
  ["vocab_size", "embeddings_dim", "hidden_size", "dropout", "num_classes"]

/-- `ESIM.__init__` (model.py lines 206–246): line 221 evaluates the unbound
name `devie`, which raises `NameError` before any submodule is built.  Were
that name resolvable, line 224 would read the never-assigned attribute
`self.embedding_dim` (only `embeddings_dim` is assigned) and raise
`AttributeError`, and line 229 would then fail inside
`Seq2SeqEncoder.__init__`. -/
def esimInit (vocab_size embeddings_dim hidden_size : ℕ) (embeddings : List (List ℚ))
    (dropout : ℚ) (num_classes : ℕ) (device : String) : Except String Unit :=
  if "devie" ∈ esimScopeNames then
    if "embedding_dim" ∈ esimAssignedAttrs then
      (seq2SeqEncoderInit embeddings_dim hidden_size 1 true 0 true).map (fun _ => ())
    else .error "AttributeError: embedding_dim"
  else .error "NameError: name devie is not defined"

/-! ### List access helpers -/

theorem getD_range_map {α : Type} (f : ℕ → α) (d : α) {n i : ℕ} (h : i < n) :
    ((List.range n).map f).getD i d = f i := by
  simp [List.getD_eq_getElem?_getD, List.getElem?_map, List.getElem?_range h]

theorem getD_map_at {α β : Type} (f : α → β) (l : List α) (da : α) (db : β)
    {i : ℕ} (h : i < l.length) :
    (l.map f).getD i db = f (l.getD i da) := by
  rw [List.getD_eq_getElem _ _ (by simpa using h : i < (l.map f).length),
    List.getElem_map, List.getD_eq_getElem _ _ h]

theorem getD_zipWith_at {α β γ : Type} (f : α → β → γ) (a : List α) (b : List β)
    (da : α) (db : β) (dc : γ) {i : ℕ} (ha : i < a.length) (hb : i < b.length) :
    (List.zipWith f a b).getD i dc = f (a.getD i da) (b.getD i db) := by
  have hl : i < (List.zipWith f a b).length := by
    rw [List.length_zipWith]; exact lt_min ha hb
  rw [List.getD_eq_getElem _ _ hl, List.getElem_zipWith,
    List.getD_eq_getElem _ _ ha, List.getD_eq_getElem _ _ hb]

theorem range_map_getD (g : ℚ → ℚ) (l : List ℚ) :
    (List.range l.length).map (fun k => g (l.getD k 0)) = l.map g := by
  apply List.ext_getElem
  · simp
  intro i h1 h2
  simp only [List.getElem_map, List.getElem_range]
  rw [List.getD_eq_getElem _ _ (by simpa using h2)]

theorem sum_map_div (l : List ℚ) (c : ℚ) :
    (l.map (fun v => v / c)).sum = l.sum / c := by
  induction l with
  | nil => simp
  | cons a t ih => simp [ih, add_div]

theorem sum_pos_of_getD (l : List ℚ) (hnn : ∀ v ∈ l, 0 ≤ v) (i : ℕ)
    (hi : i < l.length) (hpos : 0 < l.getD i 0) : 0 < l.sum := by
  induction l generalizing i with
  | nil => simp at hi
  | cons a t ih =>
    rcases i with _ | j
    · have ht : 0 ≤ t.sum := List.sum_nonneg fun v hv => hnn v (List.mem_cons_of_mem _ hv)
      simp only [List.getD_cons_zero] at hpos
      simpa using add_pos_of_pos_of_nonneg hpos ht
    · have ha : 0 ≤ a := hnn a (List.mem_cons_self a t)
      have := ih (fun v hv => hnn v (List.mem_cons_of_mem _ hv)) j
        (by simpa using hi) (by simpa using hpos)
      simpa using add_pos_of_nonneg_of_pos ha this

/-! ### Row decomposition of the flattened 2-D pipeline -/

/-- Shared shape of the two row-wise passes in `msFlat`: entry `i` is a
function of the value at `i` and a row aggregate of the row containing `i`. -/
def rowOp (h : ℚ → ℚ) (g : ℚ → ℚ → ℚ) (w : ℕ) (d : List ℚ) : List ℚ :=
  (List.range d.length).map (fun i =>
    g (d.getD i 0) (((List.range w).map (fun k => h (d.getD (i / w * w + k) 0))).sum))

theorem softmax2_eq_rowOp (e : ℚ → ℚ) (w : ℕ) (d : List ℚ) :
    softmax2 e w d = rowOp (fun v => e v) (fun v s => e v / s) w d := rfl

theorem renorm_eq_rowOp (w : ℕ) (d : List ℚ) :
    (List.range d.length).map (fun i => d.getD i 0 / (rowSumF w d i + eps)) =
      rowOp (fun v => v) (fun v s => v / (s + eps)) w d := rfl

theorem length_rowOp (h : ℚ → ℚ) (g : ℚ → ℚ → ℚ) (w : ℕ) (d : List ℚ) :
    (rowOp h g w d).length = d.length := by
  simp [rowOp]

theorem rowOp_nil (h : ℚ → ℚ) (g : ℚ → ℚ → ℚ) (w : ℕ) : rowOp h g w [] = [] := rfl

theorem rowOp_append (h : ℚ → ℚ) (g : ℚ → ℚ → ℚ) {w : ℕ} (hw : 0 < w)
    (d1 d2 : List ℚ) (hd1 : d1.length = w) :
    rowOp h g w (d1 ++ d2) =
      d1.map (fun v => g v ((d1.map h).sum)) ++ rowOp h g w d2 := by
  unfold rowOp
  rw [List.length_append, hd1, List.range_add, List.map_append]
  congr 1
  · apply List.ext_getElem
    · simp [hd1]
    intro i h1 h2
    simp only [List.getElem_map, List.getElem_range]
    have hiw : i < w := by simpa using h1
    have hi1 : i < d1.length := hd1 ▸ hiw
    have hdiv : i / w = 0 := Nat.div_eq_of_lt hiw
    rw [List.getD_append _ _ _ _ hi1, hdiv, Nat.zero_mul]
    rw [List.getD_eq_getElem _ _ hi1]
    congr 1
    have : (List.range w).map (fun k => h ((d1 ++ d2).getD (0 + k) 0)) = d1.map h := by
      apply List.ext_getElem
      · simp [hd1]
      intro k k1 k2
      simp only [List.getElem_map, List.getElem_range, Nat.zero_add]
      have hk1 : k < d1.length := by simpa [hd1] using k1
      rw [List.getD_append _ _ _ _ hk1, List.getD_eq_getElem _ _ hk1]
    rw [this]
  · apply List.ext_getElem
    · simp
    intro j h1 h2
    have hj : j < d2.length := by simpa using h1
    simp only [List.getElem_map, List.getElem_range]
    have hwj : (w + j) / w = j / w + 1 := by
      rw [Nat.add_comm w j, Nat.add_div_right _ hw]
    congr 1
    · rw [List.getD_append_right _ _ _ _ (by omega : d1.length ≤ w + j), hd1]
      congr 1
      omega
    · congr 1
      apply List.ext_getElem
      · simp
      intro k k1 k2
      simp only [List.getElem_map, List.getElem_range]
      congr 1
      have harith : (w + j) / w * w + k = d1.length + (j / w * w + k) := by
        rw [hwj, hd1, Nat.add_mul, Nat.one_mul]
        ring
      rw [harith, List.getD_append_right _ _ _ _ (by omega : d1.length ≤ d1.length + (j / w * w + k))]
      congr 1
      omega

/-! ### Decomposing `msFlat` into rows -/

theorem msFlat_nil (e : ℚ → ℚ) (w : ℕ) : msFlat e w [] [] = [] := rfl

theorem msFlat_append (e : ℚ → ℚ) {w : ℕ} (hw : 0 < w) (t1 m1 t2 m2 : List ℚ)
    (ht1 : t1.length = w) (hm1 : m1.length = w) (hlen : t2.length = m2.length) :
    msFlat e w (t1 ++ t2) (m1 ++ m2) = msRow e t1 m1 ++ msFlat e w t2 m2 := by
  have hx : List.zipWith (fun a b => a * b) (t1 ++ t2) (m1 ++ m2)
      = List.zipWith (fun a b => a * b) t1 m1 ++ List.zipWith (fun a b => a * b) t2 m2 :=
    List.zipWith_append _ _ _ _ _ (ht1.trans hm1.symm)
  have hx1 : (List.zipWith (fun a b => a * b) t1 m1).length = w := by
    rw [List.length_zipWith]; omega
  have hsm : softmax2 e w
        (List.zipWith (fun a b => a * b) t1 m1 ++ List.zipWith (fun a b => a * b) t2 m2)
      = (List.zipWith (fun a b => a * b) t1 m1).map
          (fun v => e v / (((List.zipWith (fun a b => a * b) t1 m1).map (fun v => e v)).sum))
        ++ softmax2 e w (List.zipWith (fun a b => a * b) t2 m2) := by
    rw [softmax2_eq_rowOp, rowOp_append _ _ hw _ _ hx1, softmax2_eq_rowOp]
  simp only [msFlat, msRow]
  rw [hx, hsm]
  rw [List.zipWith_append _ _ _ _ _ (by rw [List.length_map]; omega)]
  rw [renorm_eq_rowOp, renorm_eq_rowOp,
    rowOp_append _ _ hw _ _ (by rw [List.length_zipWith, List.length_map]; omega)]
  simp only [List.map_id']

theorem length_chunkRows (w : ℕ) : ∀ (n : ℕ) (d : List ℚ), (chunkRows w n d).length = n := by
  intro n
  induction n with
  | zero => intro d; rfl
  | succ n ih => intro d; simp [chunkRows, ih]

theorem chunkRows_getD (w : ℕ) : ∀ (n : ℕ) (d : List ℚ) (r : ℕ), r < n →
    (chunkRows w n d).getD r [] = (d.drop (r * w)).take w := by
  intro n
  induction n with
  | zero => intro d r hr; omega
  | succ n ih =>
    intro d r hr
    cases r with
    | zero => simp [chunkRows]
    | succ r =>
      have : (chunkRows w (n + 1) d).getD (r + 1) [] = (chunkRows w n (d.drop w)).getD r [] := by
        simp [chunkRows]
      rw [this, ih _ r (by omega), List.drop_drop]
      congr 2
      ring

theorem chunkRows_row_length (w : ℕ) : ∀ (n : ℕ) (d : List ℚ) (r : ℕ), r < n →
    d.length = n * w → ((chunkRows w n d).getD r []).length = w := by
  intro n d r hr hd
  rw [chunkRows_getD w n d r hr]
  rw [List.length_take, List.length_drop]
  have h1 : r * w + w ≤ n * w := by
    have : (r + 1) * w ≤ n * w := Nat.mul_le_mul_right w (by omega)
    calc r * w + w = (r + 1) * w := by ring
    _ ≤ n * w := this
  omega

theorem chunkRows_row_subset (w : ℕ) (n : ℕ) (d : List ℚ) (r : ℕ) :
    ∀ v ∈ (chunkRows w n d).getD r [], v ∈ d := by
  rcases Nat.lt_or_ge r n with hr | hr
  · rw [chunkRows_getD w n d r hr]
    intro v hv
    exact List.drop_subset _ _ (List.take_subset _ _ hv)
  · intro v hv
    rw [List.getD_eq_default _ _ (by rw [length_chunkRows]; omega)] at hv
    simp at hv

theorem msFlat_eq_rows (e : ℚ → ℚ) {w : ℕ} (hw : 0 < w) :
    ∀ (n : ℕ) (td md : List ℚ), td.length = n * w → md.length = n * w →
    msFlat e w td md = (List.zipWith (msRow e) (chunkRows w n td) (chunkRows w n md)).flatten := by
  intro n
  induction n with
  | zero =>
    intro td md h1 h2
    have htd : td = [] := List.length_eq_zero.mp (by omega)
    have hmd : md = [] := List.length_eq_zero.mp (by omega)
    subst htd hmd
    rfl
  | succ n ih =>
    intro td md h1 h2
    have h1' : td.length = n * w + w := by rw [h1]; ring
    have h2' : md.length = n * w + w := by rw [h2]; ring
    have ht1 : (td.take w).length = w := by rw [List.length_take]; omega
    have hm1 : (md.take w).length = w := by rw [List.length_take]; omega
    have ht2 : (td.drop w).length = n * w := by rw [List.length_drop]; omega
    have hm2 : (md.drop w).length = n * w := by rw [List.length_drop]; omega
    calc msFlat e w td md
        = msFlat e w (td.take w ++ td.drop w) (md.take w ++ md.drop w) := by
          rw [List.take_append_drop, List.take_append_drop]
      _ = msRow e (td.take w) (md.take w) ++ msFlat e w (td.drop w) (md.drop w) :=
          msFlat_append e hw _ _ _ _ ht1 hm1 (ht2.trans hm2.symm)
      _ = (List.zipWith (msRow e) (chunkRows w (n + 1) td) (chunkRows w (n + 1) md)).flatten := by
          rw [ih _ _ ht2 hm2]
          simp [chunkRows, List.flatten_cons]

theorem spec_rows_eq (e : ℚ → ℚ) : ∀ (T M : List (List ℚ)),
    renormRows (mulRows (softmaxRows e (mulRows T M)) M) = List.zipWith (msRow e) T M := by
  intro T
  induction T with
  | nil => intro M; rfl
  | cons t T ih =>
    intro M
    cases M with
    | nil => rfl
    | cons m M =>
      show msRow e t m :: renormRows (mulRows (softmaxRows e (mulRows T M)) M)
          = msRow e t m :: List.zipWith (msRow e) T M
      rw [ih]

theorem getLastD_dvd_prod : ∀ (s : List ℕ), s.getLastD 1 ∣ s.prod
  | [] => by simp
  | [a] => by simp
  | a :: b :: t => by
    have ih := getLastD_dvd_prod (b :: t)
    have h1 : (a :: b :: t).getLastD 1 = (b :: t).getLastD 1 := by
      rw [List.getLastD_eq_getLast?, List.getLastD_eq_getLast?, List.getLast?_cons_cons]
    rw [h1, List.prod_cons]
    exact Dvd.dvd.mul_left ih a

/-! ### C1 -/

/-- C1: `masked_softmax` computes exactly the specified sequence of steps:
the mask is broadcast/expanded to the tensor's shape, the tensor is
multiplied elementwise by the mask before the softmax over the last axis,
the softmax result is multiplied by the mask again, and only then is each
row divided by its own sum plus the epsilon `1e-13` — for every input tensor
(of well-formed data length) and every mask. -/
theorem masked_softmax_matches_spec (e : ℚ → ℚ) (tensor mask : Tensor)
    (hwf : tensor.data.length = tensor.shape.prod) :
    masked_softmax e tensor mask = maskedSoftmaxSpec e tensor mask := by
  have hmm : (expandedMask tensor mask).data.length = tensor.shape.prod := by
    simp [expandedMask, expandAs]
  have hl : lastDim tensor = tensor.shape.getLastD 1 := rfl
  rcases Nat.eq_zero_or_pos (lastDim tensor) with hw | hw
  · have hprod : tensor.shape.prod = 0 := by
      rcases getLastD_dvd_prod tensor.shape with ⟨c, hc⟩
      rw [hc, ← hl, hw, Nat.zero_mul]
    have htd : tensor.data = [] := List.length_eq_zero.mp (by omega)
    have hmd : (expandedMask tensor mask).data = [] := List.length_eq_zero.mp (by omega)
    simp only [masked_softmax, maskedSoftmaxSpec]
    rw [htd, hmd]
    have hnr : nRows tensor = 0 := by
      unfold nRows
      rw [htd]
      simp
    rw [hnr]
    rfl
  · obtain ⟨n', hn'⟩ := getLastD_dvd_prod tensor.shape
    have h1 : tensor.data.length = n' * lastDim tensor := by rw [hwf, hn', hl]; ring
    have h2 : (expandedMask tensor mask).data.length = n' * lastDim tensor := by
      rw [hmm, hn', hl]; ring
    have hnr : nRows tensor = n' := by
      unfold nRows
      rw [h1]
      exact Nat.mul_div_cancel n' hw
    simp only [masked_softmax, maskedSoftmaxSpec]
    congr 1
    rw [msFlat_eq_rows e hw n' _ _ h1 h2, spec_rows_eq, hnr]

/-- Witness for C1 at a concrete tensor and lower-rank mask. -/
theorem masked_softmax_matches_spec_witness :
    (⟨[2, 2], [1, 2, 3, 4]⟩ : Tensor).data.length = (⟨[2, 2], [1, 2, 3, 4]⟩ : Tensor).shape.prod ∧
    masked_softmax (fun _ => 1) ⟨[2, 2], [1, 2, 3, 4]⟩ ⟨[2], [1, 0]⟩
      = maskedSoftmaxSpec (fun _ => 1) ⟨[2, 2], [1, 2, 3, 4]⟩ ⟨[2], [1, 0]⟩ :=
  ⟨by decide, masked_softmax_matches_spec _ _ _ (by decide)⟩

/-! ### Row-level analysis of `masked_softmax` -/

theorem msRow_length (e : ℚ → ℚ) (tr mr : List ℚ) :
    (msRow e tr mr).length = min tr.length mr.length := by
  simp only [msRow, List.length_map, List.length_zipWith]
  omega

theorem getD_mem_or_default (l : List ℚ) (i : ℕ) : l.getD i 0 ∈ l ∨ l.getD i 0 = 0 := by
  rcases Nat.lt_or_ge i l.length with h | h
  · left
    rw [List.getD_eq_getElem _ _ h]
    exact List.getElem_mem _
  · right
    exact List.getD_eq_default _ _ h

theorem unsqueezeTo_data (d : ℕ) (t : Tensor) : (unsqueezeTo d t).data = t.data := by
  unfold unsqueezeTo
  generalize d - t.shape.length = k
  induction k generalizing t with
  | zero => rfl
  | succ k ih =>
    rw [Function.iterate_succ_apply]
    rw [ih (unsqueeze1 t)]
    rfl

theorem expandedMask_data_length (tensor mask : Tensor) :
    (expandedMask tensor mask).data.length = tensor.shape.prod := by
  simp [expandedMask, expandAs]

theorem expandedMask_entries_01 (tensor mask : Tensor)
    (hm01 : ∀ v ∈ mask.data, v = 0 ∨ v = 1) :
    ∀ v ∈ (expandedMask tensor mask).data, v = 0 ∨ v = 1 := by
  intro v hv
  simp only [expandedMask, expandAs] at hv
  obtain ⟨i, _, rfl⟩ := List.mem_map.mp hv
  rw [unsqueezeTo_data]
  rcases getD_mem_or_default mask.data _ with h | h
  · exact hm01 _ h
  · exact Or.inl h

theorem chunkRows_flatten (w : ℕ) : ∀ (rows : List (List ℚ)),
    (∀ row ∈ rows, row.length = w) → chunkRows w rows.length rows.flatten = rows := by
  intro rows
  induction rows with
  | nil => intro _; rfl
  | cons rr rs ih =>
    intro hlen
    have hr : rr.length = w := hlen rr (List.mem_cons_self rr rs)
    have htake : (rr ++ rs.flatten).take w = rr := by
      rw [← hr, List.take_left]
    have hdrop : (rr ++ rs.flatten).drop w = rs.flatten := by
      rw [← hr, List.drop_left]
    show (rr ++ rs.flatten).take w :: chunkRows w rs.length ((rr ++ rs.flatten).drop w)
        = rr :: rs
    rw [htake, hdrop, ih (fun row h => hlen row (List.mem_cons_of_mem _ h))]

theorem data_length_rows (tensor : Tensor) (hwf : tensor.data.length = tensor.shape.prod)
    (hw : 0 < lastDim tensor) : tensor.data.length = nRows tensor * lastDim tensor := by
  obtain ⟨c, hc⟩ := getLastD_dvd_prod tensor.shape
  have hl : lastDim tensor = tensor.shape.getLastD 1 := rfl
  have h1 : tensor.data.length = c * lastDim tensor := by rw [hwf, hc, hl]; ring
  have hnr : nRows tensor = c := by
    unfold nRows
    rw [h1]
    exact Nat.mul_div_cancel c hw
  rw [hnr]
  exact h1

theorem emask_length_rows (tensor mask : Tensor)
    (hwf : tensor.data.length = tensor.shape.prod) (hw : 0 < lastDim tensor) :
    (expandedMask tensor mask).data.length = nRows tensor * lastDim tensor := by
  rw [expandedMask_data_length, ← hwf]
  exact data_length_rows tensor hwf hw

/-- Row `r` of the output of `masked_softmax` is the per-row computation
applied to row `r` of the tensor and row `r` of the expanded mask. -/
theorem masked_softmax_row (e : ℚ → ℚ) (tensor mask : Tensor) (r : ℕ)
    (hwf : tensor.data.length = tensor.shape.prod) (hw : 0 < lastDim tensor)
    (hr : r < nRows tensor) :
    (chunkRows (lastDim tensor) (nRows tensor) (masked_softmax e tensor mask).data).getD r []
      = msRow e
        ((chunkRows (lastDim tensor) (nRows tensor) tensor.data).getD r [])
        ((chunkRows (lastDim tensor) (nRows tensor) (expandedMask tensor mask).data).getD r []) := by
  have h1 := data_length_rows tensor hwf hw
  have h2 := emask_length_rows tensor mask hwf hw
  have hdata : (masked_softmax e tensor mask).data
      = (List.zipWith (msRow e)
          (chunkRows (lastDim tensor) (nRows tensor) tensor.data)
          (chunkRows (lastDim tensor) (nRows tensor) (expandedMask tensor mask).data)).flatten :=
    msFlat_eq_rows e hw (nRows tensor) _ _ h1 h2
  have hrowlen : ∀ row ∈ List.zipWith (msRow e)
      (chunkRows (lastDim tensor) (nRows tensor) tensor.data)
      (chunkRows (lastDim tensor) (nRows tensor) (expandedMask tensor mask).data),
      row.length = lastDim tensor := by
    intro row hrow
    obtain ⟨i, hi, hrw⟩ := List.mem_iff_getElem.mp hrow
    have hin : i < nRows tensor := by
      rw [List.length_zipWith, length_chunkRows, length_chunkRows] at hi
      omega
    rw [← hrw, List.getElem_zipWith, msRow_length,
      ← List.getD_eq_getElem _ [] (by rw [length_chunkRows]; omega),
      ← List.getD_eq_getElem _ [] (by rw [length_chunkRows]; omega),
      chunkRows_row_length _ _ _ _ hin h1, chunkRows_row_length _ _ _ _ hin h2]
    omega
  have hzlen : (List.zipWith (msRow e)
      (chunkRows (lastDim tensor) (nRows tensor) tensor.data)
      (chunkRows (lastDim tensor) (nRows tensor) (expandedMask tensor mask).data)).length
      = nRows tensor := by
    rw [List.length_zipWith, length_chunkRows, length_chunkRows]
    omega
  have hchunk := chunkRows_flatten (lastDim tensor) _ hrowlen
  rw [hzlen] at hchunk
  rw [hdata, hchunk]
  exact getD_zipWith_at (msRow e) _ _ [] [] []
    (by rw [length_chunkRows]; omega) (by rw [length_chunkRows]; omega)

theorem eps_pos : (0 : ℚ) < eps := by norm_num [eps]

theorem msRow_norm (e : ℚ → ℚ) (he : ∀ x, 0 < e x) (tr mr : List ℚ)
    (hlen : mr.length = tr.length)
    (h01 : ∀ v ∈ mr, v = 0 ∨ v = 1)
    (p0 : ℕ) (hp0 : p0 < tr.length) (hp0m : mr.getD p0 0 ≠ 0) :
    (∀ p, p < tr.length → mr.getD p 0 = 0 → (msRow e tr mr).getD p 0 = 0) ∧
    ∃ S : ℚ, 0 < S ∧
      (List.zipWith (fun mv v => if mv = 0 then (0 : ℚ) else v) mr (msRow e tr mr)).sum
        = S / (S + eps) ∧
      0 < S / (S + eps) ∧ S / (S + eps) < 1 ∧ 1 - S / (S + eps) = eps / (S + eps) := by
  simp only [msRow]
  set x := List.zipWith (fun a b => a * b) tr mr with hx
  have hxlen : x.length = tr.length := by rw [hx, List.length_zipWith]; omega
  have hZpos : 0 < (x.map e).sum := by
    apply List.sum_pos
    · intro a ha
      obtain ⟨v, _, rfl⟩ := List.mem_map.mp ha
      exact he v
    · intro hc
      have hlen0 : x.length = 0 := by
        have := congrArg List.length hc
        simpa using this
      omega
  set r1 := x.map (fun v => e v / (x.map e).sum) with hr1
  have hr1len : r1.length = tr.length := by rw [hr1, List.length_map, hxlen]
  have hr1pos : ∀ i, i < tr.length → 0 < r1.getD i 0 := by
    intro i hi
    rw [hr1, getD_map_at _ _ 0 _ (by omega : i < x.length)]
    exact div_pos (he _) hZpos
  set r2 := List.zipWith (fun a b => a * b) r1 mr with hr2
  have hr2len : r2.length = tr.length := by rw [hr2, List.length_zipWith]; omega
  have hr2entry : ∀ i, i < tr.length → r2.getD i 0 = r1.getD i 0 * mr.getD i 0 := by
    intro i hi
    rw [hr2]
    exact getD_zipWith_at _ _ _ 0 0 0 (by omega) (by omega)
  have hmr01 : ∀ i, i < tr.length → mr.getD i 0 = 0 ∨ mr.getD i 0 = 1 := by
    intro i hi
    apply h01
    rw [List.getD_eq_getElem _ _ (by omega : i < mr.length)]
    exact List.getElem_mem _
  have hr2nn : ∀ v ∈ r2, 0 ≤ v := by
    intro v hv
    obtain ⟨i, hi, hv'⟩ := List.mem_iff_getElem.mp hv
    have hit : i < tr.length := by omega
    rw [← hv', ← List.getD_eq_getElem r2 0 hi, hr2entry i hit]
    rcases hmr01 i hit with h | h
    · rw [h, mul_zero]
    · rw [h, mul_one]
      exact le_of_lt (hr1pos i hit)
  have hSpos : 0 < r2.sum := by
    apply sum_pos_of_getD r2 hr2nn p0 (by omega)
    rw [hr2entry p0 hp0]
    rcases hmr01 p0 hp0 with h | h
    · exact absurd h hp0m
    · rw [h, mul_one]
      exact hr1pos p0 hp0
  have hden : 0 < r2.sum + eps := add_pos hSpos eps_pos
  have hmasked : ∀ p, p < tr.length → mr.getD p 0 = 0 →
      (r2.map (fun v => v / (r2.sum + eps))).getD p 0 = 0 := by
    intro p hp hm0
    rw [getD_map_at _ _ 0 0 (by omega : p < r2.length), hr2entry p hp, hm0, mul_zero, zero_div]
  refine ⟨hmasked, r2.sum, hSpos, ?_, div_pos hSpos hden, ?_, ?_⟩
  · have hzip : List.zipWith (fun mv v => if mv = 0 then (0 : ℚ) else v) mr
        (r2.map (fun v => v / (r2.sum + eps))) = r2.map (fun v => v / (r2.sum + eps)) := by
      apply List.ext_getElem
      · rw [List.length_zipWith, List.length_map]
        omega
      intro i h1 h2
      have hit : i < tr.length := by
        rw [List.length_map] at h2
        omega
      rw [List.getElem_zipWith,
        ← List.getD_eq_getElem mr 0 (by omega : i < mr.length),
        ← List.getD_eq_getElem (r2.map fun v => v / (r2.sum + eps)) 0 h2]
      show (if mr.getD i 0 = 0 then (0 : ℚ)
          else (List.map (fun v => v / (r2.sum + eps)) r2).getD i 0)
        = (List.map (fun v => v / (r2.sum + eps)) r2).getD i 0
      by_cases hc : mr.getD i 0 = 0
      · rw [if_pos hc, hmasked i hit hc]
      · rw [if_neg hc]
    rw [hzip, sum_map_div]
  · rw [div_lt_one hden]
    linarith [eps_pos]
  · have hne : r2.sum + eps ≠ 0 := ne_of_gt hden
    rw [eq_div_iff hne, sub_mul, one_mul, div_mul_cancel₀ _ hne, add_sub_cancel_left]

theorem msRow_fully_masked (e : ℚ → ℚ) (tr mr : List ℚ) (hlen : mr.length = tr.length)
    (p : ℕ) (hp : p < tr.length)
    (hzero : ∀ q, q < tr.length → mr.getD q 0 = 0) :
    (msRow e tr mr).getD p 0 = 0 := by
  simp only [msRow]
  set x := List.zipWith (fun a b => a * b) tr mr with hx
  have hxlen : x.length = tr.length := by rw [hx, List.length_zipWith]; omega
  set r1 := x.map (fun v => e v / (x.map e).sum) with hr1
  have hr1len : r1.length = tr.length := by rw [hr1, List.length_map, hxlen]
  set r2 := List.zipWith (fun a b => a * b) r1 mr with hr2
  have hr2len : r2.length = tr.length := by rw [hr2, List.length_zipWith]; omega
  have hr2zero : ∀ v ∈ r2, v = 0 := by
    intro v hv
    obtain ⟨i, hi, hv'⟩ := List.mem_iff_getElem.mp hv
    have hit : i < tr.length := by omega
    rw [← hv', ← List.getD_eq_getElem r2 0 hi, hr2,
      getD_zipWith_at _ _ _ 0 0 0 (by omega) (by omega), hzero i hit, mul_zero]
  have hp2 : r2.getD p 0 = 0 := by
    rcases getD_mem_or_default r2 p with h | h
    · exact hr2zero _ h
    · exact h
  rw [getD_map_at _ _ 0 0 (by omega : p < r2.length), hp2, zero_div]

/-! ### C3 -/

/-- C3: every output row of `masked_softmax` with at least one unmasked
position is exactly 0 at every masked position, and its sum over unmasked
positions equals `S / (S + eps)` for some `S > 0` — a value strictly between
0 and 1 whose distance to 1 is exactly `eps / (S + eps)` (the precise form of
"sums to 1 within floating tolerance"). -/
theorem masked_softmax_rows_normalized (e : ℚ → ℚ) (he : ∀ x, 0 < e x)
    (tensor mask : Tensor) (r p0 : ℕ)
    (hwf : tensor.data.length = tensor.shape.prod)
    (hm01 : ∀ v ∈ mask.data, v = 0 ∨ v = 1)
    (hr : r < nRows tensor)
    (hp0 : p0 < lastDim tensor)
    (hp0m : ((chunkRows (lastDim tensor) (nRows tensor)
        (expandedMask tensor mask).data).getD r []).getD p0 0 ≠ 0) :
    (∀ p, p < lastDim tensor →
      ((chunkRows (lastDim tensor) (nRows tensor)
          (expandedMask tensor mask).data).getD r []).getD p 0 = 0 →
      ((chunkRows (lastDim tensor) (nRows tensor)
          (masked_softmax e tensor mask).data).getD r []).getD p 0 = 0) ∧
    ∃ S : ℚ, 0 < S ∧
      (List.zipWith (fun mv v => if mv = 0 then (0 : ℚ) else v)
        ((chunkRows (lastDim tensor) (nRows tensor)
            (expandedMask tensor mask).data).getD r [])
        ((chunkRows (lastDim tensor) (nRows tensor)
            (masked_softmax e tensor mask).data).getD r [])).sum
        = S / (S + eps) ∧
      0 < S / (S + eps) ∧ S / (S + eps) < 1 ∧ 1 - S / (S + eps) = eps / (S + eps) := by
  have hw : 0 < lastDim tensor := by omega
  have h1 := data_length_rows tensor hwf hw
  have h2 := emask_length_rows tensor mask hwf hw
  have hTlen : ((chunkRows (lastDim tensor) (nRows tensor) tensor.data).getD r []).length
      = lastDim tensor := chunkRows_row_length _ _ _ _ hr h1
  have hMlen : ((chunkRows (lastDim tensor) (nRows tensor)
      (expandedMask tensor mask).data).getD r []).length = lastDim tensor :=
    chunkRows_row_length _ _ _ _ hr h2
  have hM01 : ∀ v ∈ (chunkRows (lastDim tensor) (nRows tensor)
      (expandedMask tensor mask).data).getD r [], v = 0 ∨ v = 1 :=
    fun v hv => expandedMask_entries_01 tensor mask hm01 v
      (chunkRows_row_subset _ _ _ _ v hv)
  rw [masked_softmax_row e tensor mask r hwf hw hr]
  obtain ⟨hmask, hex⟩ := msRow_norm e he
    ((chunkRows (lastDim tensor) (nRows tensor) tensor.data).getD r [])
    ((chunkRows (lastDim tensor) (nRows tensor) (expandedMask tensor mask).data).getD r [])
    (by omega) hM01 p0 (by omega) hp0m
  exact ⟨fun p hp hm0 => hmask p (by omega) hm0, hex⟩

/-- Witness for C3 at a concrete tensor and mask with one unmasked row. -/
theorem masked_softmax_rows_normalized_witness :
    ((⟨[2, 2], [1, 2, 3, 4]⟩ : Tensor).data.length = (⟨[2, 2], [1, 2, 3, 4]⟩ : Tensor).shape.prod) ∧
    (∀ v ∈ (⟨[2], [1, 0]⟩ : Tensor).data, v = 0 ∨ v = 1) ∧
    (0 < nRows ⟨[2, 2], [1, 2, 3, 4]⟩) ∧
    (0 < lastDim ⟨[2, 2], [1, 2, 3, 4]⟩) ∧
    (((chunkRows (lastDim ⟨[2, 2], [1, 2, 3, 4]⟩) (nRows ⟨[2, 2], [1, 2, 3, 4]⟩)
        (expandedMask ⟨[2, 2], [1, 2, 3, 4]⟩ ⟨[2], [1, 0]⟩).data).getD 0 []).getD 0 0 ≠ 0) ∧
    ((∀ p, p < lastDim ⟨[2, 2], [1, 2, 3, 4]⟩ →
      ((chunkRows (lastDim ⟨[2, 2], [1, 2, 3, 4]⟩) (nRows ⟨[2, 2], [1, 2, 3, 4]⟩)
          (expandedMask ⟨[2, 2], [1, 2, 3, 4]⟩ ⟨[2], [1, 0]⟩).data).getD 0 []).getD p 0 = 0 →
      ((chunkRows (lastDim ⟨[2, 2], [1, 2, 3, 4]⟩) (nRows ⟨[2, 2], [1, 2, 3, 4]⟩)
          (masked_softmax (fun _ => 1) ⟨[2, 2], [1, 2, 3, 4]⟩ ⟨[2], [1, 0]⟩).data).getD 0 []).getD p 0 = 0) ∧
    ∃ S : ℚ, 0 < S ∧
      (List.zipWith (fun mv v => if mv = 0 then (0 : ℚ) else v)
        ((chunkRows (lastDim ⟨[2, 2], [1, 2, 3, 4]⟩) (nRows ⟨[2, 2], [1, 2, 3, 4]⟩)
            (expandedMask ⟨[2, 2], [1, 2, 3, 4]⟩ ⟨[2], [1, 0]⟩).data).getD 0 [])
        ((chunkRows (lastDim ⟨[2, 2], [1, 2, 3, 4]⟩) (nRows ⟨[2, 2], [1, 2, 3, 4]⟩)
            (masked_softmax (fun _ => 1) ⟨[2, 2], [1, 2, 3, 4]⟩ ⟨[2], [1, 0]⟩).data).getD 0 [])).sum
        = S / (S + eps) ∧
      0 < S / (S + eps) ∧ S / (S + eps) < 1 ∧ 1 - S / (S + eps) = eps / (S + eps)) :=
  ⟨by decide, by decide, by decide, by decide, by decide,
    masked_softmax_rows_normalized (fun _ => 1) (fun _ => one_pos)
      ⟨[2, 2], [1, 2, 3, 4]⟩ ⟨[2], [1, 0]⟩ 0 0 (by decide) (by decide) (by decide)
      (by decide) (by decide)⟩

/-! ### C4 -/

/-- C4: when a row of the (broadcast) mask is entirely zero, the
corresponding output row of `masked_softmax` is exactly all zeros: the
epsilon in the denominator turns the `0 / 0` into `0 / eps = 0`, so no
division by zero occurs for any input tensor. -/
theorem masked_softmax_fully_masked (e : ℚ → ℚ) (tensor mask : Tensor) (r : ℕ)
    (hwf : tensor.data.length = tensor.shape.prod)
    (hr : r < nRows tensor)
    (hzero : ∀ p, p < lastDim tensor →
      ((chunkRows (lastDim tensor) (nRows tensor)
          (expandedMask tensor mask).data).getD r []).getD p 0 = 0) :
    ∀ p, p < lastDim tensor →
      ((chunkRows (lastDim tensor) (nRows tensor)
          (masked_softmax e tensor mask).data).getD r []).getD p 0 = 0 := by
  intro p hp
  have hw : 0 < lastDim tensor := by omega
  have h1 := data_length_rows tensor hwf hw
  have h2 := emask_length_rows tensor mask hwf hw
  have hTlen : ((chunkRows (lastDim tensor) (nRows tensor) tensor.data).getD r []).length
      = lastDim tensor := chunkRows_row_length _ _ _ _ hr h1
  have hMlen : ((chunkRows (lastDim tensor) (nRows tensor)
      (expandedMask tensor mask).data).getD r []).length = lastDim tensor :=
    chunkRows_row_length _ _ _ _ hr h2
  rw [masked_softmax_row e tensor mask r hwf hw hr]
  exact msRow_fully_masked e _ _ (by omega) p (by omega)
    (fun q hq => hzero q (by omega))

/-- Witness for C4 at a concrete tensor whose second mask row is all zero. -/
theorem masked_softmax_fully_masked_witness :
    ((⟨[2, 2], [1, 2, 3, 4]⟩ : Tensor).data.length = (⟨[2, 2], [1, 2, 3, 4]⟩ : Tensor).shape.prod) ∧
    (1 < nRows ⟨[2, 2], [1, 2, 3, 4]⟩) ∧
    (∀ p, p < lastDim ⟨[2, 2], [1, 2, 3, 4]⟩ →
      ((chunkRows (lastDim ⟨[2, 2], [1, 2, 3, 4]⟩) (nRows ⟨[2, 2], [1, 2, 3, 4]⟩)
          (expandedMask ⟨[2, 2], [1, 2, 3, 4]⟩ ⟨[2], [1, 0]⟩).data).getD 1 []).getD p 0 = 0) ∧
    (∀ p, p < lastDim ⟨[2, 2], [1, 2, 3, 4]⟩ →
      ((chunkRows (lastDim ⟨[2, 2], [1, 2, 3, 4]⟩) (nRows ⟨[2, 2], [1, 2, 3, 4]⟩)
          (masked_softmax (fun _ => 1) ⟨[2, 2], [1, 2, 3, 4]⟩ ⟨[2], [1, 0]⟩).data).getD 1 []).getD p 0 = 0) :=
  ⟨by decide, by decide, by decide,
    masked_softmax_fully_masked (fun _ => 1) ⟨[2, 2], [1, 2, 3, 4]⟩ ⟨[2], [1, 0]⟩ 1
      (by decide) (by decide) (by decide)⟩

/-! ### C2 -/

/-- C2 (counterexample): for the batch `[[3, 4], [5, 0]]` with true lengths
`[1, 2]`, position `p = 1` of example `i = 0` violates the claim: the code
sets the entry to 1 because the padded value 4 is non-zero, even though
`p < length[0]` is false — `get_mask` never consults the per-example lengths,
only their maximum. -/
theorem get_mask_counterexample :
    ¬ ((((get_mask [[3, 4], [5, 0]] [1, 2]).getD 0 []).getD 1 0 = 1) ↔
      (1 < ([1, 2] : List ℕ).getD 0 0 ∧ (([[3, 4], [5, 0]] : List (List ℕ)).getD 0 []).getD 1 0 ≠ 0)) := by
  decide

/-- C2 (amended): `get_mask` returns a matrix of width equal to the batch's
maximum true length whose entries are exactly 0.0 or 1.0, and the entry for
position `p` of example `i` is 1.0 if and only if the padded value at that
position is non-zero (the per-example length bound `p < length[i]` is not
enforced; it coincides with the stated behaviour only on batches that are
genuinely zero-padded). -/
theorem get_mask_amended (batch : List (List ℕ)) (lengths : List ℕ)
    (hW : ∀ row ∈ batch, lengths.foldr max 0 ≤ row.length) :
    (get_mask batch lengths).length = batch.length ∧
    (∀ i, i < batch.length →
      ((get_mask batch lengths).getD i []).length = lengths.foldr max 0) ∧
    (∀ i p, i < batch.length → p < lengths.foldr max 0 →
      (((get_mask batch lengths).getD i []).getD p 0 = 0 ∨
        ((get_mask batch lengths).getD i []).getD p 0 = 1) ∧
      (((get_mask batch lengths).getD i []).getD p 0 = 1 ↔
        (batch.getD i []).getD p 0 ≠ 0)) := by
  refine ⟨by simp [get_mask], ?_, ?_⟩
  · intro i hi
    simp only [get_mask]
    rw [getD_map_at _ _ [] [] hi]
    simp
  · intro i p hi hp
    simp only [get_mask]
    rw [getD_map_at _ _ [] [] hi, getD_range_map _ _ hp]
    by_cases hc : (batch.getD i []).getD p 0 = 0
    · rw [if_pos hc]
      exact ⟨Or.inl rfl, fun h => absurd h (by norm_num), fun h => absurd hc h⟩
    · rw [if_neg hc]
      exact ⟨Or.inr rfl, fun _ => hc, fun _ => rfl⟩

/-- Witness for the amended C2 on the counterexample batch. -/
theorem get_mask_amended_witness :
    (∀ row ∈ ([[3, 4], [5, 0]] : List (List ℕ)), ([1, 2] : List ℕ).foldr max 0 ≤ row.length) ∧
    ((get_mask [[3, 4], [5, 0]] [1, 2]).length = ([[3, 4], [5, 0]] : List (List ℕ)).length ∧
    (∀ i, i < ([[3, 4], [5, 0]] : List (List ℕ)).length →
      ((get_mask [[3, 4], [5, 0]] [1, 2]).getD i []).length = ([1, 2] : List ℕ).foldr max 0) ∧
    (∀ i p, i < ([[3, 4], [5, 0]] : List (List ℕ)).length → p < ([1, 2] : List ℕ).foldr max 0 →
      (((get_mask [[3, 4], [5, 0]] [1, 2]).getD i []).getD p 0 = 0 ∨
        ((get_mask [[3, 4], [5, 0]] [1, 2]).getD i []).getD p 0 = 1) ∧
      (((get_mask [[3, 4], [5, 0]] [1, 2]).getD i []).getD p 0 = 1 ↔
        (([[3, 4], [5, 0]] : List (List ℕ)).getD i []).getD p 0 ≠ 0))) :=
  ⟨by decide, get_mask_amended [[3, 4], [5, 0]] [1, 2] (by decide)⟩

/-! ### Flat-index arithmetic for 3-D tensors -/

theorem flat2_div (a c m : ℕ) (hc : c < m) : (a * m + c) / m = a := by
  rw [Nat.mul_comm a m, Nat.mul_add_div (by omega), Nat.div_eq_of_lt hc, Nat.add_zero]

theorem flat2_mod (a c m : ℕ) (hc : c < m) : (a * m + c) % m = c := by
  rw [Nat.mul_comm a m, Nat.mul_add_mod, Nat.mod_eq_of_lt hc]

theorem flat3_small (a c n m : ℕ) (ha : a < n) (hc : c < m) : a * m + c < n * m := by
  calc a * m + c < a * m + m := by omega
  _ = (a + 1) * m := by ring
  _ ≤ n * m := Nat.mul_le_mul_right m (by omega)

theorem flat3_div (b a c n m : ℕ) (ha : a < n) (hc : c < m) :
    ((b * n + a) * m + c) / (n * m) = b := by
  have h1 : (b * n + a) * m + c = (n * m) * b + (a * m + c) := by ring
  rw [h1, Nat.mul_add_div (Nat.mul_pos (by omega) (by omega)),
    Nat.div_eq_of_lt (flat3_small a c n m ha hc), Nat.add_zero]

theorem flat3_mod (b a c n m : ℕ) (ha : a < n) (hc : c < m) :
    ((b * n + a) * m + c) % (n * m) = a * m + c := by
  have h1 : (b * n + a) * m + c = (n * m) * b + (a * m + c) := by ring
  rw [h1, Nat.mul_add_mod, Nat.mod_eq_of_lt (flat3_small a c n m ha hc)]

theorem flat3_lt (b a c Bb n m : ℕ) (hb : b < Bb) (ha : a < n) (hc : c < m) :
    (b * n + a) * m + c < Bb * n * m := by
  have h1 : b * n + a + 1 ≤ Bb * n := by
    calc b * n + a + 1 ≤ b * n + n := by omega
    _ = (b + 1) * n := by ring
    _ ≤ Bb * n := Nat.mul_le_mul_right n (by omega)
  calc (b * n + a) * m + c < (b * n + a) * m + m := by omega
  _ = (b * n + a + 1) * m := by ring
  _ ≤ Bb * n * m := Nat.mul_le_mul_right m h1

/-- Entry formula for `bmm`: for `a : (B, n, m)` and `b : (B, m, p)`, the
entry at batch `b0`, row `r`, column `c` is the dot product of row `r` of
`a` with column `c` of `b` in that batch. -/
theorem bmm_entry (A B : Tensor) (Bb n m p b a c : ℕ)
    (hA : A.shape = [Bb, n, m]) (hB : B.shape = [Bb, m, p])
    (hb : b < Bb) (ha : a < n) (hc : c < p) :
    (bmm A B).data.getD ((b * n + a) * p + c) 0
      = ((List.range m).map (fun k =>
          A.data.getD ((b * n + a) * m + k) 0 * B.data.getD ((b * m + k) * p + c) 0)).sum := by
  simp only [bmm]
  rw [hA, hB]
  simp only [List.getD_cons_zero, List.getD_cons_succ]
  have hi : (b * n + a) * p + c < Bb * n * p := flat3_lt b a c Bb n p hb ha hc
  rw [getD_range_map _ 0 hi]
  have h1 : ((b * n + a) * p + c) / (n * p) = b := flat3_div b a c n p ha hc
  have h2 : ((b * n + a) * p + c) % (n * p) / p = a := by
    rw [flat3_mod b a c n p ha hc]
    exact flat2_div a c p hc
  have h3 : ((b * n + a) * p + c) % p = c := flat2_mod (b * n + a) c p hc
  rw [h1, h2, h3]

/-- Entry formula for `transposeLastTwo` on 3-D tensors. -/
theorem transpose3_entry (B : Tensor) (Bb m d b k c : ℕ) (hB : B.shape = [Bb, m, d])
    (hb : b < Bb) (hk : k < d) (hc : c < m) :
    (transposeLastTwo B).data.getD ((b * d + k) * m + c) 0
      = B.data.getD ((b * m + c) * d + k) 0 := by
  simp only [transposeLastTwo]
  rw [hB]
  have hsw : swapLast2 [Bb, m, d] = [Bb, d, m] := rfl
  rw [hsw]
  have hp : ([Bb, d, m] : List ℕ).prod = Bb * d * m := by
    simp [Nat.mul_assoc]
  have hi : (b * d + k) * m + c < ([Bb, d, m] : List ℕ).prod := by
    rw [hp]
    exact flat3_lt b k c Bb d m hb hk hc
  rw [getD_range_map _ 0 hi]
  have h1 : ((b * d + k) * m + c) / (d * m) = b := flat3_div b k c d m hk hc
  have h2 : ((b * d + k) * m + c) % (d * m) = k * m + c := flat3_mod b k c d m hk hc
  have h3 : (k * m + c) / m = k := flat2_div k c m hc
  have h4 : (k * m + c) % m = c := flat2_mod k c m hc
  have htoIdx : toIdx [Bb, d, m] ((b * d + k) * m + c) = [b, k, c] := by
    simp [toIdx, h1, h2, h3, h4]
  rw [htoIdx]
  have hswidx : swapLast2 [b, k, c] = [b, c, k] := rfl
  rw [hswidx]
  have hfrom : fromIdx [Bb, m, d] [b, c, k] = (b * m + c) * d + k := by
    simp [fromIdx]
    ring
  rw [hfrom]

theorem transposeLastTwo_shape (t : Tensor) : (transposeLastTwo t).shape = swapLast2 t.shape := rfl

theorem masked_softmax_shape (e : ℚ → ℚ) (tensor mask : Tensor) :
    (masked_softmax e tensor mask).shape = tensor.shape := rfl

theorem bmm_shape (a b : Tensor) :
    (bmm a b).shape = [a.shape.getD 0 1, a.shape.getD 1 1, b.shape.getD 2 1] := rfl

theorem weighted_sum_shape (tensor weights mask : Tensor) :
    (weighted_sum tensor weights mask).shape = (bmm weights tensor).shape := rfl

/-! ### C5 -/

/-- C5: `SoftmaxAttention.forward` computes the similarity matrix whose entry
at batch `b`, premise position `a`, hypothesis position `c` is the inner
product of the vectors of A and B there; the A-to-B weights are the masked
softmax of this matrix under B's mask and the B-to-A weights the masked
softmax of its transpose under A's mask; each attended output is the
corresponding `weighted_sum`, and the attended outputs have the shapes of the
respective encoded inputs. -/
theorem softmax_attention_forward_spec (e : ℚ → ℚ) (A pm B hm : Tensor) (Bb n m d : ℕ)
    (hA : A.shape = [Bb, n, d]) (hB : B.shape = [Bb, m, d]) :
    (softmaxAttentionForward e A pm B hm).1
        = weighted_sum B (masked_softmax e (bmm A (transposeLastTwo B)) hm) pm ∧
    (softmaxAttentionForward e A pm B hm).2
        = weighted_sum A (masked_softmax e (transposeLastTwo (bmm A (transposeLastTwo B))) pm) hm ∧
    (∀ b a c, b < Bb → a < n → c < m →
      (bmm A (transposeLastTwo B)).data.getD ((b * n + a) * m + c) 0
        = ((List.range d).map (fun k =>
            A.data.getD ((b * n + a) * d + k) 0 * B.data.getD ((b * m + c) * d + k) 0)).sum) ∧
    (softmaxAttentionForward e A pm B hm).1.shape = A.shape ∧
    (softmaxAttentionForward e A pm B hm).2.shape = B.shape := by
  have hBT : (transposeLastTwo B).shape = [Bb, d, m] := by
    rw [transposeLastTwo_shape, hB]
    rfl
  have hsim : (bmm A (transposeLastTwo B)).shape = [Bb, n, m] := by
    rw [bmm_shape, hA, hBT]
    rfl
  have hattn1 : (masked_softmax e (bmm A (transposeLastTwo B)) hm).shape = [Bb, n, m] := by
    rw [masked_softmax_shape]
    exact hsim
  have hsimT : (transposeLastTwo (bmm A (transposeLastTwo B))).shape = [Bb, m, n] := by
    rw [transposeLastTwo_shape, hsim]
    rfl
  have hattn2 : (masked_softmax e (transposeLastTwo (bmm A (transposeLastTwo B))) pm).shape
      = [Bb, m, n] := by
    rw [masked_softmax_shape]
    exact hsimT
  refine ⟨rfl, rfl, ?_, ?_, ?_⟩
  · intro b a c hb ha hc
    rw [bmm_entry A (transposeLastTwo B) Bb n d m b a c hA hBT hb ha hc]
    congr 1
    apply List.map_congr_left
    intro k hk
    rw [List.mem_range] at hk
    rw [transpose3_entry B Bb m d b k c hB hb hk hc]
  · show (weighted_sum B (masked_softmax e (bmm A (transposeLastTwo B)) hm) pm).shape = A.shape
    rw [weighted_sum_shape, bmm_shape, hattn1, hB, hA]
    rfl
  · show (weighted_sum A
        (masked_softmax e (transposeLastTwo (bmm A (transposeLastTwo B))) pm) hm).shape = B.shape
    rw [weighted_sum_shape, bmm_shape, hattn2, hA, hB]
    rfl

/-- Witness for C5 on two single-position batches. -/
theorem softmax_attention_forward_spec_witness :
    ((⟨[1, 1, 1], [2]⟩ : Tensor).shape = [1, 1, 1]) ∧
    ((⟨[1, 1, 1], [3]⟩ : Tensor).shape = [1, 1, 1]) ∧
    ((softmaxAttentionForward (fun _ => 1) ⟨[1, 1, 1], [2]⟩ ⟨[1, 1], [1]⟩ ⟨[1, 1, 1], [3]⟩ ⟨[1, 1], [1]⟩).1
        = weighted_sum ⟨[1, 1, 1], [3]⟩
            (masked_softmax (fun _ => 1)
              (bmm ⟨[1, 1, 1], [2]⟩ (transposeLastTwo ⟨[1, 1, 1], [3]⟩)) ⟨[1, 1], [1]⟩)
            ⟨[1, 1], [1]⟩ ∧
      (softmaxAttentionForward (fun _ => 1) ⟨[1, 1, 1], [2]⟩ ⟨[1, 1], [1]⟩ ⟨[1, 1, 1], [3]⟩ ⟨[1, 1], [1]⟩).2
        = weighted_sum ⟨[1, 1, 1], [2]⟩
            (masked_softmax (fun _ => 1)
              (transposeLastTwo (bmm ⟨[1, 1, 1], [2]⟩ (transposeLastTwo ⟨[1, 1, 1], [3]⟩))) ⟨[1, 1], [1]⟩)
            ⟨[1, 1], [1]⟩ ∧
      (∀ b a c, b < 1 → a < 1 → c < 1 →
        (bmm ⟨[1, 1, 1], [2]⟩ (transposeLastTwo ⟨[1, 1, 1], [3]⟩)).data.getD ((b * 1 + a) * 1 + c) 0
          = ((List.range 1).map (fun k =>
              (⟨[1, 1, 1], [2]⟩ : Tensor).data.getD ((b * 1 + a) * 1 + k) 0 *
                (⟨[1, 1, 1], [3]⟩ : Tensor).data.getD ((b * 1 + c) * 1 + k) 0)).sum) ∧
      (softmaxAttentionForward (fun _ => 1) ⟨[1, 1, 1], [2]⟩ ⟨[1, 1], [1]⟩ ⟨[1, 1, 1], [3]⟩ ⟨[1, 1], [1]⟩).1.shape
        = (⟨[1, 1, 1], [2]⟩ : Tensor).shape ∧
      (softmaxAttentionForward (fun _ => 1) ⟨[1, 1, 1], [2]⟩ ⟨[1, 1], [1]⟩ ⟨[1, 1, 1], [3]⟩ ⟨[1, 1], [1]⟩).2.shape
        = (⟨[1, 1, 1], [3]⟩ : Tensor).shape) :=
  ⟨rfl, rfl, softmax_attention_forward_spec (fun _ => 1)
    ⟨[1, 1, 1], [2]⟩ ⟨[1, 1], [1]⟩ ⟨[1, 1, 1], [3]⟩ ⟨[1, 1], [1]⟩ 1 1 1 1 rfl rfl⟩

/-! ### C6 -/

theorem bmm_data_length (a b : Tensor) :
    (bmm a b).data.length = a.shape.getD 0 1 * a.shape.getD 1 1 * b.shape.getD 2 1 := by
  simp [bmm]

theorem expandAs_data_length (m target : Tensor) :
    (expandAs m target).data.length = target.shape.prod := by
  simp [expandAs]

theorem toIdx3 (Bb n m b a c : ℕ) (ha : a < n) (hc : c < m) :
    toIdx [Bb, n, m] ((b * n + a) * m + c) = [b, a, c] := by
  have h1 := flat3_div b a c n m ha hc
  have h2 := flat3_mod b a c n m ha hc
  have h3 := flat2_div a c m hc
  have h4 := flat2_mod a c m hc
  simp [toIdx, h1, h2, h3, h4]

/-- C6: `weighted_sum` equals the batched matrix product of the weights with
the tensor, with the whole vector at every masked output position set exactly
to 0; the mask may have fewer leading axes than the data (rank 2, the case
arising from `get_mask`) or equal rank (with a singleton middle axis) — the
unsqueeze loop raises its rank until the ranks match. -/
theorem weighted_sum_spec (tensor weights mask : Tensor) (Bb s m d : ℕ)
    (ht : tensor.shape = [Bb, m, d]) (hw : weights.shape = [Bb, s, m])
    (hmask : mask.shape = [Bb, s] ∨ mask.shape = [Bb, 1, s])
    (hm01 : ∀ v ∈ mask.data, v = 0 ∨ v = 1) :
    (weighted_sum tensor weights mask).shape = [Bb, s, d] ∧
    (∀ b q j, b < Bb → q < s → j < d →
      (weighted_sum tensor weights mask).data.getD ((b * s + q) * d + j) 0
        = if mask.data.getD (b * s + q) 0 = 0 then 0
          else (bmm weights tensor).data.getD ((b * s + q) * d + j) 0) := by
  have hws_shape : (bmm weights tensor).shape = [Bb, s, d] := by
    rw [bmm_shape, hw, ht]
    rfl
  constructor
  · rw [weighted_sum_shape]
    exact hws_shape
  intro b q j hb hq hj
  have hm1shape : (unsqueezeTo 3 mask).shape = [Bb, 1, s] := by
    rcases hmask with hms | hms
    · unfold unsqueezeTo
      rw [hms]
      show (unsqueeze1 mask).shape = [Bb, 1, s]
      simp only [unsqueeze1]
      rw [hms]
    · unfold unsqueezeTo
      rw [hms]
      exact hms
  have hm2shape : (transposeLastTwo (unsqueezeTo 3 mask)).shape = [Bb, s, 1] := by
    rw [transposeLastTwo_shape, hm1shape]
    rfl
  have hprod3 : ([Bb, s, d] : List ℕ).prod = Bb * s * d := by
    simp [Nat.mul_assoc]
  have hi : (b * s + q) * d + j < Bb * s * d := flat3_lt b q j Bb s d hb hq hj
  have hm3a : (expandAs (transposeLastTwo (unsqueezeTo 3 mask)) (bmm weights tensor)).data.getD
      ((b * s + q) * d + j) 0
      = (transposeLastTwo (unsqueezeTo 3 mask)).data.getD (b * s + q) 0 := by
    simp only [expandAs]
    rw [hws_shape, hm2shape]
    rw [getD_range_map _ 0 (by rw [hprod3]; exact hi)]
    rw [toIdx3 Bb s d b q j hq hj]
    congr 1
    have hx : (if Bb = 1 then 0 else b) = b := by
      by_cases h : Bb = 1
      · rw [if_pos h]; omega
      · rw [if_neg h]
    have hy : (if s = 1 then 0 else q) = q := by
      by_cases h : s = 1
      · rw [if_pos h]; omega
      · rw [if_neg h]
    simp [fromIdx, hx, hy]
  have hm3b : (transposeLastTwo (unsqueezeTo 3 mask)).data.getD (b * s + q) 0
      = mask.data.getD (b * s + q) 0 := by
    have h := transpose3_entry (unsqueezeTo 3 mask) Bb 1 s b q 0 hm1shape hb hq (by omega)
    have e1 : (b * s + q) * 1 + 0 = b * s + q := by ring
    have e2 : (b * 1 + 0) * s + q = b * s + q := by ring
    rw [e1, e2] at h
    rw [h, unsqueezeTo_data]
  have hlen1 : (bmm weights tensor).data.length = Bb * s * d := by
    rw [bmm_data_length, hw, ht]
    rfl
  have hlen2 : (expandAs (transposeLastTwo (unsqueezeTo 3 mask)) (bmm weights tensor)).data.length
      = Bb * s * d := by
    rw [expandAs_data_length, hws_shape, hprod3]
  have hdata : (weighted_sum tensor weights mask).data
      = List.zipWith (fun a b => a * b) (bmm weights tensor).data
          (expandAs (transposeLastTwo (unsqueezeTo 3 mask)) (bmm weights tensor)).data := rfl
  rw [hdata, getD_zipWith_at _ _ _ 0 0 0 (by rw [hlen1]; exact hi) (by rw [hlen2]; exact hi),
    hm3a, hm3b]
  have hv : mask.data.getD (b * s + q) 0 = 0 ∨ mask.data.getD (b * s + q) 0 = 1 := by
    rcases getD_mem_or_default mask.data (b * s + q) with h | h
    · exact hm01 _ h
    · exact Or.inl h
  rcases hv with h | h
  · rw [h, mul_zero, if_pos rfl]
  · rw [h, mul_one, if_neg one_ne_zero]

/-- Witness for C6 on a rank-2 mask over a 3-D batch. -/
theorem weighted_sum_spec_witness :
    ((⟨[1, 1, 1], [2]⟩ : Tensor).shape = [1, 1, 1]) ∧
    ((⟨[1, 1, 1], [3]⟩ : Tensor).shape = [1, 1, 1]) ∧
    ((⟨[1, 1], [1]⟩ : Tensor).shape = [1, 1] ∨ (⟨[1, 1], [1]⟩ : Tensor).shape = [1, 1, 1]) ∧
    (∀ v ∈ (⟨[1, 1], [1]⟩ : Tensor).data, v = 0 ∨ v = 1) ∧
    ((weighted_sum ⟨[1, 1, 1], [2]⟩ ⟨[1, 1, 1], [3]⟩ ⟨[1, 1], [1]⟩).shape = [1, 1, 1] ∧
    (∀ b q j, b < 1 → q < 1 → j < 1 →
      (weighted_sum ⟨[1, 1, 1], [2]⟩ ⟨[1, 1, 1], [3]⟩ ⟨[1, 1], [1]⟩).data.getD ((b * 1 + q) * 1 + j) 0
        = if (⟨[1, 1], [1]⟩ : Tensor).data.getD (b * 1 + q) 0 = 0 then 0
          else (bmm ⟨[1, 1, 1], [3]⟩ ⟨[1, 1, 1], [2]⟩).data.getD ((b * 1 + q) * 1 + j) 0)) :=
  ⟨rfl, rfl, Or.inl rfl, by decide,
    weighted_sum_spec ⟨[1, 1, 1], [2]⟩ ⟨[1, 1, 1], [3]⟩ ⟨[1, 1], [1]⟩ 1 1 1 1
      rfl rfl (Or.inl rfl) (by decide)⟩

/-! ### C7 -/

/-- C7 (counterexample): constructing the CNN with an injected embedding
matrix whose row 0 is `[1]` yields an embedding table whose row 0 is `[1]`,
not the zero vector: the `padding_idx=0` zeroing applies only to the freshly
initialised weight, which line 32 immediately overwrites with `embeddings`. -/
theorem cnn_embedding_row0_counterexample :
    (cnnInit [[1]] 1 1 1 1 1 0).emb_weight.getD 0 [] = [(1 : ℚ)] ∧
    ¬ (cnnInit [[1]] 1 1 1 1 1 0).emb_weight.getD 0 [] = [(0 : ℚ)] := by
  decide

/-- C7 (amended): after construction the CNN embedding table is exactly the
injected `embeddings` matrix — row 0 is the zero vector only when the
injected matrix's row 0 is — and `ESIM.__init__` never completes, so the CNN
is the only model whose table exists at all.  The table is a plain
immutable value of the constructed model. -/
theorem cnn_embedding_table_amended (embeddings : List (List ℚ))
    (input_dim window_dim filter_dim output_dim max_len : ℕ) (dropout : ℚ) :
    (cnnInit embeddings input_dim window_dim filter_dim output_dim max_len dropout).emb_weight
      = embeddings ∧
    (∀ (vs ed hs : ℕ) (em : List (List ℚ)) (dr : ℚ) (nc : ℕ) (dev : String),
      esimInit vs ed hs em dr nc dev = .error "NameError: name devie is not defined") :=
  ⟨rfl, fun _ _ _ _ _ _ _ => rfl⟩

/-! ### C8 -/

/-- C8 (counterexample): `CNN.forward` returns `None` — it never applies the
convolution, and the tensor it computes is just the unsqueezed embedding; the
result does not even depend on the convolution configuration
(`window_dim`/`filter_dim` changed from 1/1 to 3/4 below). -/
theorem cnn_forward_counterexample :
    (cnnForward (cnnInit [[5]] 1 1 1 1 1 0) [[0]] [1]).2 = none ∧
    (cnnForward (cnnInit [[5]] 1 1 1 1 1 0) [[0]] [1]).1 = [[[[5]]]] ∧
    cnnForward (cnnInit [[5]] 1 3 4 1 1 0) [[0]] [1]
      = cnnForward (cnnInit [[5]] 1 1 1 1 1 0) [[0]] [1] := by
  decide

/-- C8 (amended): `CNN.forward` embeds the tokens and inserts a singleton
channel axis, producing a `(batch, 1, len, emb)` tensor, but stops there: the
convolution is never applied and the function returns `None`.  The
convolution layer itself is built in `__init__` with 1 input channel,
`filter_dim` output channels, kernel `(window_dim, embedding_dim)`, stride 1
and no padding. -/
theorem cnn_forward_amended (embeddings : List (List ℚ))
    (input_dim window_dim filter_dim output_dim max_len : ℕ) (dropout : ℚ)
    (sen_batch : List (List ℕ)) (sen_lengths : List ℕ) :
    cnnForward (cnnInit embeddings input_dim window_dim filter_dim output_dim max_len dropout)
        sen_batch sen_lengths
      = ((sen_batch.map (fun s => s.map (fun tok => embeddings.getD tok []))).map
          (fun mat => [mat]), none) ∧
    (cnnInit embeddings input_dim window_dim filter_dim output_dim max_len dropout).cnn
      = ⟨1, filter_dim, window_dim, (embeddings.getD 0 []).length, 1, 0⟩ :=
  ⟨rfl, rfl⟩

/-! ### C9 -/

/-- C9: the spec's bidirectional-encoder contract (output last dimension
`2H`) can never be exercised because `Seq2SeqEncoder.__init__` reads the
never-assigned attribute `self.input_dim` (the constructor stores
`input_size`) and raises `AttributeError` for every argument tuple — no
encoder instance is ever constructed, and the class defines no `forward`
at all. -/
theorem seq2seq_encoder_init_raises (input_size hidden_size num_layers : ℕ)
    (bias : Bool) (dropout : ℚ) (bidirectional : Bool) :
    seq2SeqEncoderInit input_size hidden_size num_layers bias dropout bidirectional
      = .error "AttributeError: input_dim" := rfl

/-! ### C10 -/

/-- C10: `ESIM.__init__` raises for every tuple of constructor arguments —
line 221 evaluates the unbound name `devie` and raises `NameError` — so no
ESIM instance is ever constructed; moreover `embedding_dim` is never among
the assigned attributes (only `embeddings_dim` is), and
`Seq2SeqEncoder.__init__` itself raises on its unset `input_dim`. -/
theorem esim_init_raises (vocab_size embeddings_dim hidden_size : ℕ)
    (embeddings : List (List ℚ)) (dropout : ℚ) (num_classes : ℕ) (device : String) :
    esimInit vocab_size embeddings_dim hidden_size embeddings dropout num_classes device
      = .error "NameError: name devie is not defined" ∧
    "embedding_dim" ∉ esimAssignedAttrs ∧
    (∀ (input_size hs nl : ℕ) (bias : Bool) (dr : ℚ) (bi : Bool),
      seq2SeqEncoderInit input_size hs nl bias dr bi = .error "AttributeError: input_dim") :=
  ⟨rfl, by decide, fun _ _ _ _ _ _ => rfl⟩

end NLP
